import Mathlib

/-!
# Traffic pipeline (`Task.cpp`): bounded buffer, line parser and max-by-key aggregation

A shallow embedding of `src/Task.cpp`.

* `std::string` is `String`; `int` counts are `Int` (the only arithmetic on them is `max`,
  the parser checks the `int` range explicitly).
* `std::map<string, vector<pair<string,int>>>` is a key-ordered association list
  (`Table`): `Table.find` is `map::find`, `Table.insert` is `operator[]` followed by
  assignment, `Table.modify` is mutation through the reference `operator[]` returns.
* `std::queue<TrafficData>` is a list, front at the head.
* `main` never starts a thread: `produceFromFile` and `consume` run one after the other on
  the main thread.  A condition-variable wait whose predicate is false therefore never
  returns, and the program is a deterministic step function (`step`) that has no successor
  in a blocked state.
-/

/-! ## Data model -/

/-- Class `TrafficData` (lines 16-22). -/
structure TrafficData where
  timestamp : String
  traffic_light_data : List (String × Int)
deriving DecidableEq, Repr

/-- The mapped type of `max_cars_passed`: `vector<pair<string,int>>`. -/
abbrev Entry := List (String × Int)

/-- The member `max_cars_passed` (line 98): `map<string, vector<pair<string,int>>>`,
as a list of (key, value) in ascending key order. -/
abbrev Table := List (String × Entry)

/-- `map::find(ts)`: the value stored under `ts`, if any. -/
def Table.find : Table → String → Option Entry
  | [], _ => none
  | (k, e) :: rest, ts => if k = ts then some e else Table.find rest ts

/-- `m[ts] = v`: overwrite the value under `ts`, or insert a new node at the position the
lexicographic order of `std::string` gives it. -/
def Table.insert : Table → String → Entry → Table
  | [], ts, v => [(ts, v)]
  | (k, e) :: rest, ts, v =>
    if ts.data < k.data then (ts, v) :: (k, e) :: rest
    else if k = ts then (k, v) :: rest
    else (k, e) :: Table.insert rest ts v

/-- Mutation of the vector stored under `ts` through the reference returned by `m[ts]`
(the key is present). -/
def Table.modify : Table → String → (Entry → Entry) → Table
  | [], _, _ => []
  | (k, e) :: rest, ts, f =>
    if k = ts then (k, f e) :: rest else (k, e) :: Table.modify rest ts f

/-! ## Aggregation: `TrafficConsumer::updateMaxCarsPassed` -/

/-- Inner loop (lines 121-126): walk the entry; at the first pair whose id equals the id of
the reading, store the larger count and `break`.  When no pair matches, nothing is written. -/
def updateExisting : Entry → String × Int → Entry
  | [], _ => []
  | x :: xs, light_data =>
    if x.1 = light_data.1 then (x.1, max x.2 light_data.2) :: xs
    else x :: updateExisting xs light_data

/-- Lines 115-129 of `updateMaxCarsPassed`. -/
def updateMaxCarsPassed (t : Table) (data : TrafficData) : Table :=
  match t.find data.timestamp with
  | none => t.insert data.timestamp data.traffic_light_data
  | some _ => t.modify data.timestamp (fun e => data.traffic_light_data.foldl updateExisting e)

/-- The first record of `rs` carrying timestamp `ts`. -/
def firstRecord (rs : List TrafficData) (ts : String) : Option TrafficData :=
  rs.find? (fun r => decide (r.timestamp = ts))

/-- The sensor ids of an entry or of a record's readings, in order. -/
def ids (e : Entry) : List String := e.map Prod.fst

/-- Pointwise comparison of two entries: same ids at the same positions, counts not smaller. -/
def EntryLe (e e' : Entry) : Prop :=
  List.Forall₂ (fun p q => q.1 = p.1 ∧ p.2 ≤ q.2) e e'

/-- The count `m` is the maximum over all readings of sensor `id` in records of `rs` with
timestamp `ts`: it is one of them and bounds all of them. -/
def IsMaxCount (rs : List TrafficData) (ts id : String) (m : Int) : Prop :=
  (∃ r ∈ rs, r.timestamp = ts ∧ (id, m) ∈ r.traffic_light_data) ∧
  ∀ r ∈ rs, r.timestamp = ts → ∀ c, (id, c) ∈ r.traffic_light_data → c ≤ m

/-- Running maximum of the counts that the readings `rd` give for sensor `id`, from `m0`. -/
def runMax (id : String) (rd : List (String × Int)) (m0 : Int) : Int :=
  rd.foldl (fun m q => if id = q.1 then max m q.2 else m) m0

/-- Folding record `r` into `t` again changes nothing: its timestamp has an entry that
already dominates every reading of `r`. -/
def Absorbed (t : Table) (r : TrafficData) : Prop :=
  ∃ e, t.find r.timestamp = some e ∧ ∀ q ∈ r.traffic_light_data, updateExisting e q = e


/-! ### Concrete inputs used below -/

/-- The three input lines of the concrete scenario, parsed. -/
def scenario : List TrafficData :=
  [⟨"08:00", [("A", 5), ("B", 3)]⟩, ⟨"08:00", [("A", 2), ("B", 9)]⟩, ⟨"08:05", [("A", 1)]⟩]

/-- A table with the single entry 08:00 -> [(A,5)]. -/
def tableA : Table := [("08:00", [("A", 5)])]

/-- A table with the single entry 08:00 -> [(A,5),(B,3)]. -/
def tableAB : Table := [("08:00", [("A", 5), ("B", 3)])]

/-- The record (08:00,[B 3]). -/
def recordB : TrafficData := ⟨"08:00", [("B", 3)]⟩

/-- The record (08:00,[A 1,A 5]), which repeats sensor A. -/
def recordAA : TrafficData := ⟨"08:00", [("A", 1), ("A", 5)]⟩

/-- The record (08:00,[A 2,B 9]). -/
def recordAB : TrafficData := ⟨"08:00", [("A", 2), ("B", 9)]⟩

/-- Two records of one timestamp; the second repeats sensor A, the first repeats none. -/
def replayRecords : List TrafficData :=
  [⟨"08:00", [("A", 5), ("B", 3)]⟩, ⟨"08:00", [("A", 2), ("A", 9)]⟩]

/-! ## The bounded buffer: class `TrafficBuffer` -/

/-- Class `TrafficBuffer` (lines 24-52): the queue, front at the head, and `max_size`.
The mutex and the two condition variables carry no data. -/
structure TrafficBuffer where
  buffer : List TrafficData
  max_size : Int
deriving DecidableEq, Repr

/-- The error the specification names for a capacity below 1.  The source declares no such
error and has no statement that raises one. -/
inductive BufferError where
  | InvalidCapacity
deriving DecidableEq, Repr

/-- Member initialiser of the constructor (line 33): `max_size(size)`, the queue empty. -/
def TrafficBuffer.init (size : Int) : TrafficBuffer := ⟨[], size⟩

/-- Constructor `TrafficBuffer(int size)` (line 33) as a computation that could fail.  Its
body is empty: nothing is checked and nothing is thrown. -/
def TrafficBuffer.construct (size : Int) : Except BufferError TrafficBuffer :=
  Except.ok (TrafficBuffer.init size)

/-- Value of the `int` operand `max_size` in `buffer.size() < max_size` (line 37): the
comparison is made in `size_t`, so the `int` is converted modulo 2^64. -/
def toSizeT (n : Int) : Nat := (n % 2 ^ 64).toNat

/-- `put` (lines 35-41).  `none`: the predicate of `not_full.wait` is false and the caller
blocks.  Otherwise the value is pushed at the back. -/
def TrafficBuffer.put (b : TrafficBuffer) (data : TrafficData) : Option TrafficBuffer :=
  if b.buffer.length < toSizeT b.max_size then
    some { b with buffer := b.buffer ++ [data] }
  else none

/-- `get` (lines 43-51).  `none`: the predicate of `not_empty.wait` is false and the caller
blocks.  Otherwise the front value is popped and returned. -/
def TrafficBuffer.get (b : TrafficBuffer) : Option (TrafficData × TrafficBuffer) :=
  match b.buffer with
  | [] => none
  | data :: rest => some (data, { b with buffer := rest })

/-- One call on the buffer. -/
inductive BufferOp where
  | put (data : TrafficData)
  | get
deriving DecidableEq, Repr

/-- Sequential run of a list of calls, each taken only when its wait predicate holds.
The result is the list of values returned by the `get` calls, in call order, and the final
buffer; `none` when some call of the list would block. -/
def TrafficBuffer.exec : TrafficBuffer → List BufferOp → Option (List TrafficData × TrafficBuffer)
  | b, [] => some ([], b)
  | b, BufferOp.put data :: ops =>
    match b.put data with
    | none => none
    | some b' => TrafficBuffer.exec b' ops
  | b, BufferOp.get :: ops =>
    match b.get with
    | none => none
    | some (data, b') =>
      match TrafficBuffer.exec b' ops with
      | none => none
      | some (outs, b2) => some (data :: outs, b2)

/-- The values passed to `put` in a list of calls, in call order. -/
def putValues : List BufferOp → List TrafficData
  | [] => []
  | BufferOp.put data :: ops => data :: putValues ops
  | BufferOp.get :: ops => putValues ops

/-! ## Line parsing in `TrafficProducer::produceFromFile` (lines 67-75)

The stream `iss` is the list of characters not yet read.  A failed extraction sets
`failbit`, after which the loop condition is false; the parser stops there. -/

/-- `std::isspace` in the "C" locale: space, `\t`, `\n`, `\v`, `\f`, `\r`. -/
def isspace (c : Char) : Bool :=
  c = ' ' || c = Char.ofNat 9 || c = Char.ofNat 10 || c = Char.ofNat 11 ||
    c = Char.ofNat 12 || c = Char.ofNat 13

/-- Decimal digit characters. -/
def isdigit (c : Char) : Bool := decide ('0'.toNat ≤ c.toNat) && decide (c.toNat ≤ '9'.toNat)

/-- Numeric value of a decimal digit character. -/
def digitVal (c : Char) : Nat := c.toNat - '0'.toNat

/-- `iss >> str` for a `std::string`: skip leading whitespace, fail at end of input,
otherwise extract the characters up to the next whitespace. -/
def readString (s : List Char) : Option (List Char × List Char) :=
  match s.dropWhile isspace with
  | [] => none
  | c :: cs =>
    some ((c :: cs).takeWhile (fun x => !isspace x), (c :: cs).dropWhile (fun x => !isspace x))

/-- The digit run at the front of the input and its value, accumulated left to right; fails
when there is no digit. -/
def readDigits (s : List Char) : Option (Nat × List Char) :=
  match s.takeWhile isdigit with
  | [] => none
  | d :: ds => some ((d :: ds).foldl (fun acc c => 10 * acc + digitVal c) 0, s.dropWhile isdigit)

/-- `iss >> n` for an `int` (base 10, as `num_get` reads it): skip leading whitespace, take
an optional sign, then the longest run of digits, at least one; a value outside
`[-2^31, 2^31 - 1]` sets `failbit`. -/
def readInt (s : List Char) : Option (Int × List Char) :=
  match s.dropWhile isspace with
  | [] => none
  | c :: cs =>
    if c = '-' then
      match readDigits cs with
      | none => none
      | some (n, rest) => if n ≤ 2 ^ 31 then some (-(n : Int), rest) else none
    else if c = '+' then
      match readDigits cs with
      | none => none
      | some (n, rest) => if n < 2 ^ 31 then some ((n : Int), rest) else none
    else
      match readDigits (c :: cs) with
      | none => none
      | some (n, rest) => if n < 2 ^ 31 then some ((n : Int), rest) else none

/-- The loop `while (iss >> light_id >> cars_passed) push_back(...)` (lines 73-75).
`fuel` bounds the number of evaluations of the loop condition; `none` when it is used up. -/
def readPairs : Nat → List Char → Option (List (String × Int))
  | 0, _ => none
  | fuel + 1, s =>
    match readString s with
    | none => some []
    | some (light_id, s1) =>
      match readInt s1 with
      | none => some []
      | some (cars_passed, s2) =>
        match readPairs fuel s2 with
        | none => none
        | some rest => some ((String.mk light_id, cars_passed) :: rest)

/-- Lines 67-75 for one line of the file: the record built from it.  When the timestamp
extraction fails the timestamp stays empty and the loop body never runs.  The fuel given to
the loop exceeds the number of characters left, each iteration reads at least two. -/
def parseLine (line : String) : Option TrafficData :=
  match readString line.data with
  | none => some ⟨"", []⟩
  | some (timestamp, s1) =>
    match readPairs (s1.length + 1) s1 with
    | none => none
    | some pairs => some ⟨String.mk timestamp, pairs⟩

/-- A token: a non-empty run of characters none of which is whitespace. -/
def IsToken (t : List Char) : Prop := t ≠ [] ∧ ∀ c ∈ t, isspace c = false

/-- A run of whitespace, possibly empty. -/
def IsBlank (w : List Char) : Prop := ∀ c ∈ w, isspace c = true

/-- A separator: a non-empty run of whitespace. -/
def IsSep (w : List Char) : Prop := w ≠ [] ∧ IsBlank w

instance (t : List Char) : Decidable (IsToken t) := by
  unfold IsToken; infer_instance

instance (w : List Char) : Decidable (IsBlank w) := by
  unfold IsBlank; infer_instance

instance (w : List Char) : Decidable (IsSep w) := by
  unfold IsSep; infer_instance

/-- Decimal value of a digit string, most significant digit first. -/
def decimalValue (ds : List Char) : Nat := Nat.ofDigits 10 (ds.reverse.map digitVal)

/-- The text of a well-formed integer count: an optional sign and a non-empty digit string
whose value is `v`, an `int`. -/
def IsIntToken (tok : List Char) (v : Int) : Prop :=
  ∃ ds : List Char, ds ≠ [] ∧ (∀ c ∈ ds, isdigit c = true) ∧
    ((tok = ds ∧ v = decimalValue ds) ∨ (tok = '+' :: ds ∧ v = decimalValue ds) ∨
      (tok = '-' :: ds ∧ v = -(decimalValue ds : Int))) ∧
    -(2 : Int) ^ 31 ≤ v ∧ v < 2 ^ 31

/-- The text of one (sensor_id, count) pair inside a line, with the whitespace before each
of its two tokens, and the count the text denotes. -/
structure PairText where
  sep1 : List Char
  light_id : List Char
  sep2 : List Char
  count : List Char
  cars_passed : Int

/-- Well-formedness of a pair text. -/
def PairText.WF (p : PairText) : Prop :=
  IsSep p.sep1 ∧ IsToken p.light_id ∧ IsSep p.sep2 ∧ IsIntToken p.count p.cars_passed

/-- The characters of a pair text. -/
def PairText.text (p : PairText) : List Char := p.sep1 ++ p.light_id ++ p.sep2 ++ p.count

/-- The characters of a list of pair texts. -/
def pairsText : List PairText → List Char
  | [] => []
  | p :: ps => p.text ++ pairsText ps

/-- The input that follows a token: empty, or starting with whitespace. -/
def Boundary (rest : List Char) : Prop := ∀ c, rest.head? = some c → isspace c = true

/-- The text of the line "08:10 A 4": one pair, A with count 4. -/
def pairA4 : PairText := ⟨[' '], ['A'], [' '], ['4'], 4⟩

/-! ## The program: `main` (lines 147-161) -/

/-- Lines written to the console, by kind. -/
inductive OutLine where
  /-- The line "Consumed: Timestamp: .. Light Data: .." (lines 77-81 and 107-111). -/
  | consumed (data : TrafficData)
  /-- The line "Unable to open file." (line 85). -/
  | unableToOpen
  /-- The line "Maximum cars passed for each timestamp:" (line 132). -/
  | reportHeader
  /-- The line "Timestamp: .. Light Data: ID: .. Max Cars Passed: .." (lines 134-138). -/
  | reportEntry (timestamp : String) (e : Entry)
deriving DecidableEq, Repr

/-- Class `TrafficConsumer` (lines 94-145): the flag `running` and the table. -/
structure TrafficConsumer where
  running : Bool
  max_cars_passed : Table
deriving DecidableEq, Repr

/-- `printMaxCarsPassed` (lines 131-140): the header, then one line per timestamp in map
order. -/
def printMaxCarsPassed (c : TrafficConsumer) : List OutLine :=
  OutLine.reportHeader :: c.max_cars_passed.map (fun kv => OutLine.reportEntry kv.1 kv.2)

/-- Where the main thread is. -/
inductive Pc where
  /-- In the `while (getline ..)` loop of `produceFromFile`; the lines not yet read. -/
  | produce (lines : List String)
  /-- In the `while (running)` loop of `consume`. -/
  | consume (c : TrafficConsumer)
  /-- `consume` has returned; `printMaxCarsPassed` is the next statement (line 158). -/
  | report (c : TrafficConsumer)
  /-- `main` has returned. -/
  | done
deriving DecidableEq, Repr

/-- State of the program: the buffer, the position of the main thread, the console. -/
structure MainState where
  buffer : TrafficBuffer
  pc : Pc
  out : List OutLine
deriving DecidableEq, Repr

/-- What a step does. -/
inductive Event where
  | put (data : TrafficData)
  | get (data : TrafficData)
  | producerReturned
  | consumeReturned
  | report
deriving DecidableEq, Repr

/-- State of `main` on entry to `produceFromFile` with `buffer_size = 10` (lines 149-154).
`file` is the content of `test_data.txt` as its lines, or `none` when the file cannot be
opened: the producer then reports it and returns at once. -/
def mainInit (file : Option (List String)) : MainState :=
  match file with
  | some lines => ⟨TrafficBuffer.init 10, Pc.produce lines, []⟩
  | none => ⟨TrafficBuffer.init 10, Pc.produce [], [OutLine.unableToOpen]⟩

/-- One step of the main thread.  There is no other thread, so a wait whose predicate is
false never ends: the blocked states have no successor, like the final state `done`.
The branch in which `parseLine` gives no record is never taken (`parseLine_total`). -/
def step (s : MainState) : Option (Event × MainState) :=
  match s.pc with
  | Pc.produce [] =>
    -- produceFromFile returns; line 156 constructs the consumer with running = true
    some (Event.producerReturned, { s with pc := Pc.consume ⟨true, []⟩ })
  | Pc.produce (line :: lines) =>
    match parseLine line with
    | none => none
    | some data =>
      match s.buffer.put data with
      | none => none
      | some b =>
        some (Event.put data, ⟨b, Pc.produce lines, s.out ++ [OutLine.consumed data]⟩)
  | Pc.consume c =>
    if c.running then
      match s.buffer.get with
      | none => none
      | some (data, b) =>
        some (Event.get data,
          ⟨b, Pc.consume { c with max_cars_passed := updateMaxCarsPassed c.max_cars_passed data },
            s.out ++ [OutLine.consumed data]⟩)
    else some (Event.consumeReturned, { s with pc := Pc.report c })
  | Pc.report c =>
    some (Event.report, { s with pc := Pc.done, out := s.out ++ printMaxCarsPassed c })
  | Pc.done => none

/-- The first `n` steps from `s`, or all of them when there are fewer: the events and the
state reached. -/
def run : Nat → MainState → List Event × MainState
  | 0, s => ([], s)
  | n + 1, s =>
    match step s with
    | none => ([], s)
    | some (ev, s') => (ev :: (run n s').1, (run n s').2)

/-- The three lines of the concrete scenario. -/
def scenarioFile : List String := ["08:00 A 5 B 3", "08:00 A 2 B 9", "08:05 A 1"]

/-- A file of eleven lines. -/
def elevenLines : List String :=
  ["08:00 A 1", "08:01 A 1", "08:02 A 1", "08:03 A 1", "08:04 A 1", "08:05 A 1",
   "08:06 A 1", "08:07 A 1", "08:08 A 1", "08:09 A 1", "08:10 A 1"]

/-- The states in which the final report has not been reached and cannot be: the producer
loop, or the consumer loop with `running` still true; the header has not been printed. -/
def NotReporting (s : MainState) : Prop :=
  ((∃ lines, s.pc = Pc.produce lines) ∨ (∃ c, s.pc = Pc.consume c ∧ c.running = true)) ∧
    OutLine.reportHeader ∉ s.out
/-! ## Lemmas on the table operations -/

theorem Table.find_insert (t : Table) (ts ts' : String) (v : Entry) :
    (t.insert ts v).find ts' = if ts = ts' then some v else t.find ts' := by
  induction t with
  | nil => simp [Table.insert, Table.find]
  | cons hd rest ih =>
    obtain ⟨k, e⟩ := hd
    by_cases h1 : ts.data < k.data
    · simp [Table.insert, Table.find, h1]
    · by_cases h2 : k = ts
      · subst h2
        by_cases h3 : k = ts' <;> simp [Table.insert, Table.find, h1, h3]
      · by_cases h3 : ts = ts'
        · subst h3
          simp [Table.insert, Table.find, h1, h2, ih]
        · by_cases h4 : k = ts'
          · subst h4
            simp [Table.insert, Table.find, h1, h2, h3]
          · simp [Table.insert, Table.find, h1, h2, h3, h4, ih]

theorem Table.find_modify (t : Table) (ts ts' : String) (f : Entry → Entry) :
    (t.modify ts f).find ts' = if ts = ts' then (t.find ts).map f else t.find ts' := by
  induction t with
  | nil => simp [Table.modify, Table.find]
  | cons hd rest ih =>
    obtain ⟨k, e⟩ := hd
    by_cases h1 : k = ts
    · subst h1
      by_cases h2 : k = ts' <;> simp [Table.modify, Table.find, h2]
    · by_cases h2 : ts = ts'
      · subst h2; simp [Table.modify, Table.find, h1, ih]
      · by_cases h3 : k = ts'
        · subst h3
          have h4 : ¬ ts = k := fun h => h1 h.symm
          simp [Table.modify, Table.find, h1, h4]
        · simp [Table.modify, Table.find, h1, h2, h3, ih]

theorem Table.modify_eq_self (t : Table) (ts : String) (f : Entry → Entry) (e : Entry)
    (h : t.find ts = some e) (hf : f e = e) : t.modify ts f = t := by
  induction t with
  | nil => simp [Table.find] at h
  | cons hd rest ih =>
    obtain ⟨k, e0⟩ := hd
    by_cases h1 : k = ts
    · simp [Table.find, h1] at h
      subst h
      simp [Table.modify, h1, hf]
    · simp [Table.find, h1] at h
      simp [Table.modify, h1, ih h]

theorem Table.modify_congr (t : Table) (ts : String) (f g : Entry → Entry)
    (h : ∀ e, t.find ts = some e → f e = g e) : t.modify ts f = t.modify ts g := by
  induction t with
  | nil => rfl
  | cons hd rest ih =>
    obtain ⟨k, e0⟩ := hd
    by_cases h1 : k = ts
    · have := h e0 (by simp [Table.find, h1])
      simp [Table.modify, h1, this]
    · have h2 : ∀ e, Table.find rest ts = some e → f e = g e := by
        intro e he
        exact h e (by simpa [Table.find, h1] using he)
      simp [Table.modify, h1, ih h2]

/-! ## Lemmas on the inner loop -/

theorem ids_updateExisting (e : Entry) (p : String × Int) :
    ids (updateExisting e p) = ids e := by
  induction e with
  | nil => rfl
  | cons x xs ih =>
    simp only [updateExisting]
    split_ifs with h
    · simp [ids]
    · simpa [ids] using ih

theorem EntryLe.refl (e : Entry) : EntryLe e e := by
  induction e with
  | nil => exact List.Forall₂.nil
  | cons x xs ih => exact List.Forall₂.cons ⟨rfl, le_refl _⟩ ih

theorem EntryLe.trans {a b c : Entry} (h1 : EntryLe a b) (h2 : EntryLe b c) : EntryLe a c := by
  induction h1 generalizing c with
  | nil => cases h2; exact List.Forall₂.nil
  | cons hab _ ih =>
    cases h2 with
    | cons hbc hrest =>
      exact List.Forall₂.cons ⟨hbc.1.trans hab.1, le_trans hab.2 hbc.2⟩ (ih hrest)

theorem entryLe_updateExisting (e : Entry) (p : String × Int) :
    EntryLe e (updateExisting e p) := by
  induction e with
  | nil => exact List.Forall₂.nil
  | cons x xs ih =>
    simp only [updateExisting]
    split_ifs with h
    · exact List.Forall₂.cons ⟨rfl, le_max_left _ _⟩ (EntryLe.refl xs)
    · exact List.Forall₂.cons ⟨rfl, le_refl _⟩ ih

theorem entryLe_foldl (rd : List (String × Int)) (e : Entry) :
    EntryLe e (rd.foldl updateExisting e) := by
  induction rd generalizing e with
  | nil => exact EntryLe.refl e
  | cons p rest ih => exact (entryLe_updateExisting e p).trans (ih _)

/-- One call keeps every existing entry in place and does not lower any count. -/
theorem update_entryLe (t : Table) (data : TrafficData) (ts : String) (e : Entry)
    (h : t.find ts = some e) :
    ∃ e', (updateMaxCarsPassed t data).find ts = some e' ∧ EntryLe e e' := by
  unfold updateMaxCarsPassed
  cases hf : t.find data.timestamp with
  | none =>
    have hne : data.timestamp ≠ ts := by
      intro heq; rw [heq, h] at hf; cases hf
    exact ⟨e, by simp [Table.find_insert, hne, h], EntryLe.refl e⟩
  | some e0 =>
    by_cases heq : data.timestamp = ts
    · refine ⟨data.traffic_light_data.foldl updateExisting e, ?_, entryLe_foldl _ _⟩
      simp [Table.find_modify, heq, h]
    · exact ⟨e, by simp [Table.find_modify, heq, h], EntryLe.refl e⟩

theorem foldl_update_entryLe (rs : List TrafficData) (t : Table) (ts : String) (e : Entry)
    (h : t.find ts = some e) :
    ∃ e', (rs.foldl updateMaxCarsPassed t).find ts = some e' ∧ EntryLe e e' := by
  induction rs generalizing t e with
  | nil => exact ⟨e, h, EntryLe.refl e⟩
  | cons r rest ih =>
    obtain ⟨e1, h1, hle1⟩ := update_entryLe t r ts e h
    obtain ⟨e2, h2, hle2⟩ := ih (updateMaxCarsPassed t r) e1 h1
    exact ⟨e2, h2, hle1.trans hle2⟩

/-! ## The inner loop on entries without repeated ids -/

theorem runMax_ge_init (id : String) (rd : List (String × Int)) (m0 : Int) :
    m0 ≤ runMax id rd m0 := by
  induction rd generalizing m0 with
  | nil => exact le_refl _
  | cons q rest ih =>
    simp only [runMax, List.foldl_cons]
    split_ifs with h
    · exact le_trans (le_max_left _ _) (ih _)
    · exact ih _

theorem runMax_ge_mem (id : String) (rd : List (String × Int)) (m0 c : Int)
    (h : (id, c) ∈ rd) : c ≤ runMax id rd m0 := by
  induction rd generalizing m0 with
  | nil => cases h
  | cons q rest ih =>
    simp only [runMax, List.foldl_cons]
    rcases List.mem_cons.mp h with hq | hq
    · subst hq
      simp only [if_true]
      exact le_trans (le_max_right _ _) (runMax_ge_init id rest _)
    · exact ih _ hq

theorem runMax_attained (id : String) (rd : List (String × Int)) (m0 : Int) :
    runMax id rd m0 = m0 ∨ (id, runMax id rd m0) ∈ rd := by
  induction rd generalizing m0 with
  | nil => exact Or.inl rfl
  | cons q rest ih =>
    simp only [runMax, List.foldl_cons]
    split_ifs with h
    · rcases ih (max m0 q.2) with h1 | h1
      · rcases max_choice m0 q.2 with h2 | h2
        · left; exact h1.trans h2
        · right
          have h3 : runMax id rest (max m0 q.2) = q.2 := h1.trans h2
          have h4 : (id, q.2) = q := by rw [h]
          exact List.mem_cons.mpr (Or.inl (by rw [← h4]; exact congrArg (Prod.mk id) h3))
      · right; exact List.mem_cons_of_mem _ h1
    · rcases ih m0 with h1 | h1
      · left; exact h1
      · right; exact List.mem_cons_of_mem _ h1

theorem updateExisting_eq_map (e : Entry) (q : String × Int) (hn : (ids e).Nodup) :
    updateExisting e q = e.map (fun p => if p.1 = q.1 then (p.1, max p.2 q.2) else p) := by
  induction e with
  | nil => rfl
  | cons x xs ih =>
    have hn' : (ids xs).Nodup := (List.nodup_cons.mp (by simpa [ids] using hn)).2
    have hx : x.1 ∉ ids xs := (List.nodup_cons.mp (by simpa [ids] using hn)).1
    simp only [updateExisting, List.map_cons]
    split_ifs with h
    · congr 1
      symm
      conv_rhs => rw [← List.map_id xs]
      apply List.map_congr_left
      intro p hp
      have : p.1 ≠ q.1 := by
        intro hpq
        apply hx
        rw [h, ← hpq]
        exact List.mem_map_of_mem Prod.fst hp
      simp [this]
    · rw [ih hn']

theorem foldl_updateExisting_eq_map (rd : List (String × Int)) (e : Entry)
    (hn : (ids e).Nodup) :
    rd.foldl updateExisting e = e.map (fun p => (p.1, runMax p.1 rd p.2)) := by
  induction rd generalizing e with
  | nil => simp [runMax]
  | cons q rest ih =>
    have hn' : (ids (updateExisting e q)).Nodup := by rw [ids_updateExisting]; exact hn
    rw [List.foldl_cons, ih _ hn', updateExisting_eq_map e q hn, List.map_map]
    apply List.map_congr_left
    intro p _
    by_cases h : p.1 = q.1
    · simp [runMax, h]
    · simp [runMax, h]

/-! ## Stability of a reading: the inner loop leaves the entry as it is -/

theorem updateExisting_idem (e : Entry) (q : String × Int) :
    updateExisting (updateExisting e q) q = updateExisting e q := by
  induction e with
  | nil => rfl
  | cons x xs ih =>
    by_cases h : x.1 = q.1
    · simp [updateExisting, h]
    · simp [updateExisting, h, ih]

theorem updateExisting_stable_of_le {e e' : Entry} (hle : EntryLe e e') (q : String × Int)
    (h : updateExisting e q = e) : updateExisting e' q = e' := by
  induction hle with
  | nil => rfl
  | @cons x x' xs xs' hx _ ih =>
    by_cases hq : x.1 = q.1
    · have hq' : x'.1 = q.1 := hx.1.trans hq
      simp only [updateExisting, hq, if_true] at h
      have h2 : max x.2 q.2 = x.2 := by
        have := congrArg Prod.snd (List.cons.inj h).1
        simpa using this
      have h3 : q.2 ≤ x'.2 := le_trans (max_eq_left_iff.mp h2) hx.2
      simp only [updateExisting, hq', if_true]
      rw [max_eq_left h3, ← hq']
    · have hq' : ¬ x'.1 = q.1 := fun hh => hq (hx.1.symm.trans hh)
      simp only [updateExisting, hq, if_false] at h
      simp only [updateExisting, hq', if_false]
      rw [ih (List.cons.inj h).2]

theorem foldl_updateExisting_stable (rd : List (String × Int)) (e : Entry) :
    ∀ q ∈ rd, updateExisting (rd.foldl updateExisting e) q = rd.foldl updateExisting e := by
  induction rd generalizing e with
  | nil => intro q hq; cases hq
  | cons p rest ih =>
    intro q hq
    rcases List.mem_cons.mp hq with h | h
    · subst h
      exact updateExisting_stable_of_le (entryLe_foldl rest _) q (updateExisting_idem e q)
    · exact ih _ q h

theorem updateExisting_self_of_nodup (rd : List (String × Int)) (hn : (ids rd).Nodup) :
    ∀ q ∈ rd, updateExisting rd q = rd := by
  induction rd with
  | nil => intro q hq; cases hq
  | cons x xs ih =>
    have hn' : (ids xs).Nodup := (List.nodup_cons.mp (by simpa [ids] using hn)).2
    have hx : x.1 ∉ ids xs := (List.nodup_cons.mp (by simpa [ids] using hn)).1
    intro q hq
    rcases List.mem_cons.mp hq with h | h
    · subst h; simp [updateExisting]
    · have hne : ¬ x.1 = q.1 := by
        intro hh; apply hx; rw [hh]; exact List.mem_map_of_mem Prod.fst h
      simp [updateExisting, hne, ih hn' q h]

theorem foldl_updateExisting_of_stable (rd : List (String × Int)) (e : Entry)
    (h : ∀ q ∈ rd, updateExisting e q = e) : rd.foldl updateExisting e = e := by
  induction rd with
  | nil => rfl
  | cons p rest ih =>
    rw [List.foldl_cons, h p (List.mem_cons_self _ _)]
    exact ih (fun q hq => h q (List.mem_cons_of_mem _ hq))

theorem update_of_absorbed (t : Table) (r : TrafficData) (h : Absorbed t r) :
    updateMaxCarsPassed t r = t := by
  obtain ⟨e, he, hst⟩ := h
  simp only [updateMaxCarsPassed, he]
  exact Table.modify_eq_self t _ _ e he (foldl_updateExisting_of_stable _ e hst)

theorem absorbed_update_of_absorbed (t : Table) (r r' : TrafficData) (h : Absorbed t r) :
    Absorbed (updateMaxCarsPassed t r') r := by
  obtain ⟨e, he, hst⟩ := h
  obtain ⟨e', he', hle⟩ := update_entryLe t r' r.timestamp e he
  exact ⟨e', he', fun q hq => updateExisting_stable_of_le hle q (hst q hq)⟩

theorem absorbed_update_self (t : Table) (r : TrafficData)
    (h : t.find r.timestamp ≠ none ∨ (ids r.traffic_light_data).Nodup) :
    Absorbed (updateMaxCarsPassed t r) r := by
  cases hf : t.find r.timestamp with
  | none =>
    have hn : (ids r.traffic_light_data).Nodup := by
      rcases h with h | h
      · exact absurd hf h
      · exact h
    refine ⟨r.traffic_light_data, ?_, updateExisting_self_of_nodup _ hn⟩
    simp [updateMaxCarsPassed, hf, Table.find_insert]
  | some e =>
    refine ⟨r.traffic_light_data.foldl updateExisting e, ?_, foldl_updateExisting_stable _ e⟩
    simp [updateMaxCarsPassed, hf, Table.find_modify]

theorem foldl_update_of_absorbed (l : List TrafficData) (t : Table)
    (h : ∀ r ∈ l, Absorbed t r) : l.foldl updateMaxCarsPassed t = t := by
  induction l with
  | nil => rfl
  | cons r rest ih =>
    rw [List.foldl_cons, update_of_absorbed t r (h r (List.mem_cons_self _ _))]
    exact ih (fun q hq => h q (List.mem_cons_of_mem _ hq))

/-! ## Folding a sequence of records from the empty table -/

theorem firstRecord_append_singleton (rs : List TrafficData) (r : TrafficData) (ts : String) :
    firstRecord (rs ++ [r]) ts =
      match firstRecord rs ts with
      | some f => some f
      | none => if r.timestamp = ts then some r else none := by
  unfold firstRecord
  rw [List.find?_append]
  cases h : List.find? (fun r => decide (r.timestamp = ts)) rs with
  | some f => rfl
  | none =>
    by_cases h2 : r.timestamp = ts <;> simp [List.find?, h2]

theorem firstRecord_none_iff (rs : List TrafficData) (ts : String) :
    firstRecord rs ts = none ↔ ∀ r ∈ rs, r.timestamp ≠ ts := by
  simp [firstRecord, List.find?_eq_none]

theorem find_update (t : Table) (r : TrafficData) (ts : String) :
    (updateMaxCarsPassed t r).find ts =
      if r.timestamp = ts then
        match t.find ts with
        | none => some r.traffic_light_data
        | some e => some (r.traffic_light_data.foldl updateExisting e)
      else t.find ts := by
  by_cases h : r.timestamp = ts
  · subst h
    cases hf : t.find r.timestamp with
    | none => simp [updateMaxCarsPassed, hf, Table.find_insert]
    | some e => simp [updateMaxCarsPassed, hf, Table.find_modify]
  · cases hf : t.find r.timestamp with
    | none => simp [updateMaxCarsPassed, hf, Table.find_insert, h]
    | some e => simp [updateMaxCarsPassed, hf, Table.find_modify, h]

theorem find_foldl_none_iff (rs : List TrafficData) (ts : String) :
    (rs.foldl updateMaxCarsPassed []).find ts = none ↔ firstRecord rs ts = none := by
  induction rs using List.reverseRecOn with
  | nil => simp [Table.find, firstRecord]
  | append_singleton rs r ih =>
    rw [List.foldl_append, List.foldl_cons, List.foldl_nil, find_update,
      firstRecord_append_singleton]
    by_cases h : r.timestamp = ts
    · cases hf : (rs.foldl updateMaxCarsPassed []).find ts <;>
        cases hr : firstRecord rs ts <;> simp [h]
    · cases hr : firstRecord rs ts with
      | none => simpa [h] using ih.mpr hr
      | some f =>
        simp only [h, if_false]
        constructor
        · intro hh; exact absurd (ih.mp hh) (by simp [hr])
        · intro hh; cases hh

theorem isMaxCount_append_of_ne (rs : List TrafficData) (r : TrafficData) (ts id : String)
    (m : Int) (hne : r.timestamp ≠ ts) (h : IsMaxCount rs ts id m) :
    IsMaxCount (rs ++ [r]) ts id m := by
  obtain ⟨⟨r0, hr0, hts, hmem⟩, hub⟩ := h
  refine ⟨⟨r0, List.mem_append_left _ hr0, hts, hmem⟩, ?_⟩
  intro r1 hr1 hts1 c hc
  rcases List.mem_append.mp hr1 with h1 | h1
  · exact hub r1 h1 hts1 c hc
  · rw [List.mem_singleton.mp h1] at hts1
    exact absurd hts1 hne

/-- Main lemma on the fold: when the first record of every timestamp has no repeated sensor
id, each entry lists the ids of that first record and pairs each with the maximum count. -/
theorem foldl_update_spec (rs : List TrafficData)
    (hfirst : ∀ ts f, firstRecord rs ts = some f → (ids f.traffic_light_data).Nodup)
    (ts : String) (f : TrafficData) (hf : firstRecord rs ts = some f) :
    ∃ e, (rs.foldl updateMaxCarsPassed []).find ts = some e ∧
      ids e = ids f.traffic_light_data ∧ ∀ p ∈ e, IsMaxCount rs ts p.1 p.2 := by
  induction rs using List.reverseRecOn generalizing ts f with
  | nil => simp [firstRecord] at hf
  | append_singleton rs r ih =>
    have hfirst' : ∀ ts f, firstRecord rs ts = some f → (ids f.traffic_light_data).Nodup := by
      intro ts0 f0 h0
      apply hfirst ts0 f0
      rw [firstRecord_append_singleton, h0]
    rw [List.foldl_append, List.foldl_cons, List.foldl_nil, find_update]
    rw [firstRecord_append_singleton] at hf
    cases hr : firstRecord rs ts with
    | none =>
      rw [hr] at hf
      by_cases hts : r.timestamp = ts
      · simp only [hts, if_true] at hf
        cases hf
        have hnone := (find_foldl_none_iff rs ts).mpr hr
        have hnd : (ids r.traffic_light_data).Nodup := by
          apply hfirst ts r
          rw [firstRecord_append_singleton, hr]
          simp [hts]
        refine ⟨r.traffic_light_data, by simp [hts, hnone], rfl, ?_⟩
        intro p hp
        refine ⟨⟨r, by simp, hts, hp⟩, ?_⟩
        intro r1 hr1 hts1 c hc
        rcases List.mem_append.mp hr1 with h1 | h1
        · exact absurd hts1 ((firstRecord_none_iff rs ts).mp hr r1 h1)
        · rw [List.mem_singleton.mp h1] at hc
          have hpc : (p.1, c) = p := by
            have hinj := List.inj_on_of_nodup_map (f := Prod.fst) (by simpa [ids] using hnd)
            exact hinj hc hp rfl
          exact le_of_eq (congrArg Prod.snd hpc)
      · simp [hts] at hf
    | some f0 =>
      rw [hr] at hf
      have hff : f0 = f := Option.some.inj hf
      subst hff
      obtain ⟨e, he, hids, hmax⟩ := ih hfirst' ts f0 hr
      by_cases hts : r.timestamp = ts
      · have hnd : (ids e).Nodup := by rw [hids]; exact hfirst' ts f0 hr
        refine ⟨r.traffic_light_data.foldl updateExisting e, by simp [hts, he], ?_, ?_⟩
        · rw [foldl_updateExisting_eq_map _ _ hnd, ← hids]
          simp [ids, List.map_map, Function.comp_def]
        · rw [foldl_updateExisting_eq_map _ _ hnd]
          intro p hp
          obtain ⟨p0, hp0, rfl⟩ := List.mem_map.mp hp
          obtain ⟨⟨r0, hr0, hts0, hmem0⟩, hub⟩ := hmax p0 hp0
          refine ⟨?_, ?_⟩
          · rcases runMax_attained p0.1 r.traffic_light_data p0.2 with h1 | h1
            · exact ⟨r0, List.mem_append_left _ hr0, hts0, by simpa [h1] using hmem0⟩
            · exact ⟨r, by simp, hts, h1⟩
          · intro r1 hr1 hts1 c hc
            rcases List.mem_append.mp hr1 with h1 | h1
            · exact le_trans (hub r1 h1 hts1 c hc) (runMax_ge_init _ _ _)
            · rw [List.mem_singleton.mp h1] at hc
              exact runMax_ge_mem _ _ _ _ hc
      · refine ⟨e, by simp [hts, he], hids, ?_⟩
        intro p hp
        exact isMaxCount_append_of_ne rs r ts p.1 p.2 hts (hmax p hp)

/-- After the fold, every record of the sequence is absorbed by the table, provided the
first record of every timestamp has no repeated sensor id. -/
theorem foldl_update_absorbed (rs : List TrafficData)
    (hfirst : ∀ ts f, firstRecord rs ts = some f → (ids f.traffic_light_data).Nodup) :
    ∀ r ∈ rs, Absorbed (rs.foldl updateMaxCarsPassed []) r := by
  induction rs using List.reverseRecOn with
  | nil => intro r hr; cases hr
  | append_singleton rs r ih =>
    have hfirst' : ∀ ts f, firstRecord rs ts = some f → (ids f.traffic_light_data).Nodup := by
      intro ts0 f0 h0
      apply hfirst ts0 f0
      rw [firstRecord_append_singleton, h0]
    rw [List.foldl_append, List.foldl_cons, List.foldl_nil]
    intro r0 hr0
    rcases List.mem_append.mp hr0 with h | h
    · exact absorbed_update_of_absorbed _ r0 r (ih hfirst' r0 h)
    · rw [List.mem_singleton.mp h]
      apply absorbed_update_self
      by_cases hn : (rs.foldl updateMaxCarsPassed []).find r.timestamp = none
      · right
        apply hfirst r.timestamp r
        rw [firstRecord_append_singleton, (find_foldl_none_iff rs r.timestamp).mp hn]
        simp
      · left; exact hn

theorem entryLe_index {e e' : Entry} (h : EntryLe e e') :
    e'.length = e.length ∧
      ∀ (i : Nat) (p : String × Int), e[i]? = some p → ∃ c, e'[i]? = some (p.1, c) ∧ p.2 ≤ c := by
  induction h with
  | nil => exact ⟨rfl, fun i p hp => by simp at hp⟩
  | @cons x x' xs xs' hx _ ih =>
    refine ⟨by simp [ih.1], ?_⟩
    intro i p hp
    cases i with
    | zero =>
      simp only [List.getElem?_cons_zero, Option.some.injEq] at hp
      subst hp
      exact ⟨x'.2, by simp [← hx.1], hx.2⟩
    | succ j =>
      simp only [List.getElem?_cons_succ] at hp
      simpa using ih.2 j p hp

theorem updateExisting_of_not_mem (e : Entry) (q : String × Int) (h : q.1 ∉ ids e) :
    updateExisting e q = e := by
  induction e with
  | nil => rfl
  | cons x xs ih =>
    have h1 : ¬ x.1 = q.1 := fun hh => h (by simp [ids, ← hh])
    have h2 : q.1 ∉ ids xs := fun hh => h (by
      simp only [ids, List.map_cons, List.mem_cons]; exact Or.inr hh)
    simp [updateExisting, h1, ih h2]

theorem ids_foldl_updateExisting (rd : List (String × Int)) (e : Entry) :
    ids (rd.foldl updateExisting e) = ids e := by
  induction rd generalizing e with
  | nil => rfl
  | cons q rest ih => rw [List.foldl_cons, ih, ids_updateExisting]

theorem foldl_updateExisting_filter (rd : List (String × Int)) (e : Entry) :
    rd.foldl updateExisting e =
      (rd.filter (fun q => decide (q.1 ∈ ids e))).foldl updateExisting e := by
  induction rd generalizing e with
  | nil => rfl
  | cons q rest ih =>
    by_cases h : q.1 ∈ ids e
    · rw [List.filter_cons_of_pos (by simpa using h), List.foldl_cons, List.foldl_cons, ih,
        ids_updateExisting]
    · rw [List.filter_cons_of_neg (by simpa using h), List.foldl_cons,
        updateExisting_of_not_mem e q h, ih]

/-! ## Lemmas on the buffer -/

theorem toSizeT_le (n : Int) (h : 0 ≤ n) : (toSizeT n : Int) ≤ n := by
  unfold toSizeT
  omega

theorem TrafficBuffer.put_eq_some {b b' : TrafficBuffer} {data : TrafficData}
    (h : b.put data = some b') :
    b.buffer.length < toSizeT b.max_size ∧ b' = ⟨b.buffer ++ [data], b.max_size⟩ := by
  unfold TrafficBuffer.put at h
  split_ifs at h with hlt
  exact ⟨hlt, (Option.some.inj h).symm⟩

theorem TrafficBuffer.get_eq_some {b b' : TrafficBuffer} {data : TrafficData}
    (h : b.get = some (data, b')) :
    b.buffer = data :: b'.buffer ∧ b'.max_size = b.max_size := by
  unfold TrafficBuffer.get at h
  cases hq : b.buffer with
  | nil => simp [hq] at h
  | cons d rest =>
    simp only [hq, Option.some.injEq, Prod.mk.injEq] at h
    obtain ⟨h1, h2⟩ := h
    subst h1 h2
    exact ⟨rfl, rfl⟩

/-- Along a run the values put so far are the values returned followed by the values
queued, `max_size` is constant, and the length bound is kept. -/
theorem TrafficBuffer.exec_spec (ops : List BufferOp) (b0 b : TrafficBuffer)
    (outs : List TrafficData) (h : b0.exec ops = some (outs, b)) :
    b0.buffer ++ putValues ops = outs ++ b.buffer ∧ b.max_size = b0.max_size ∧
      (b0.buffer.length ≤ toSizeT b0.max_size → b.buffer.length ≤ toSizeT b.max_size) := by
  induction ops generalizing b0 outs with
  | nil =>
    simp only [TrafficBuffer.exec, Option.some.injEq, Prod.mk.injEq] at h
    obtain ⟨h1, h2⟩ := h
    subst h1 h2
    simp [putValues]
  | cons op ops ih =>
    cases op with
    | put data =>
      simp only [TrafficBuffer.exec] at h
      cases hp : b0.put data with
      | none => simp [hp] at h
      | some b1 =>
        simp only [hp] at h
        obtain ⟨hlt, hb1⟩ := TrafficBuffer.put_eq_some hp
        obtain ⟨h1, h2, h3⟩ := ih b1 outs h
        subst hb1
        refine ⟨?_, h2, ?_⟩
        · simpa [putValues] using h1
        · intro _
          apply h3
          simp only [List.length_append, List.length_singleton]
          omega
    | get =>
      simp only [TrafficBuffer.exec] at h
      cases hg : b0.get with
      | none => simp [hg] at h
      | some r =>
        obtain ⟨data, b1⟩ := r
        simp only [hg] at h
        cases hr : b1.exec ops with
        | none => simp [hr] at h
        | some r2 =>
          obtain ⟨outs2, b2⟩ := r2
          simp only [hr, Option.some.injEq, Prod.mk.injEq] at h
          obtain ⟨h1, h2⟩ := h
          subst h1 h2
          obtain ⟨hq, hm⟩ := TrafficBuffer.get_eq_some hg
          obtain ⟨i1, i2, i3⟩ := ih b1 outs2 hr
          refine ⟨?_, i2.trans hm, ?_⟩
          · rw [hq]
            simpa [putValues] using i1
          · intro hle
            apply i3
            rw [hm]
            rw [hq] at hle
            simp only [List.length_cons] at hle
            omega

theorem TrafficBuffer.exec_puts (vs : List TrafficData) (q : List TrafficData) (m : Int)
    (ops : List BufferOp) (h : q.length + vs.length ≤ toSizeT m) :
    TrafficBuffer.exec ⟨q, m⟩ (vs.map BufferOp.put ++ ops) =
      TrafficBuffer.exec ⟨q ++ vs, m⟩ ops := by
  induction vs generalizing q with
  | nil => simp
  | cons v vs ih =>
    simp only [List.length_cons] at h
    have hlt : q.length < toSizeT m := by omega
    have hstep : TrafficBuffer.exec ⟨q, m⟩ (List.map BufferOp.put (v :: vs) ++ ops) =
        TrafficBuffer.exec ⟨q ++ [v], m⟩ (List.map BufferOp.put vs ++ ops) := by
      simp only [List.map_cons, List.cons_append]
      rw [TrafficBuffer.exec]
      simp [TrafficBuffer.put, hlt]
    rw [hstep, ih (q ++ [v]) (by simp only [List.length_append, List.length_singleton]; omega)]
    simp

theorem TrafficBuffer.exec_gets (q rest : List TrafficData) (m : Int) :
    TrafficBuffer.exec ⟨q ++ rest, m⟩ (List.replicate q.length BufferOp.get) =
      some (q, ⟨rest, m⟩) := by
  induction q with
  | nil => simp [TrafficBuffer.exec]
  | cons v q ih =>
    simp only [List.length_cons, List.replicate_succ, List.cons_append, TrafficBuffer.exec,
      TrafficBuffer.get, ih]

/-- With `max_size = 0` the predicate of `put` is false in every state: each `put` blocks. -/
theorem TrafficBuffer.put_zero_capacity (q : List TrafficData) (data : TrafficData) :
    TrafficBuffer.put ⟨q, 0⟩ data = none := by
  simp [TrafficBuffer.put, toSizeT]

/-! ## Lemmas on the stream extractions -/

theorem isdigit_false_of_isspace (c : Char) (h : isspace c = true) : isdigit c = false := by
  simp only [isspace, Bool.or_eq_true, decide_eq_true_eq] at h
  rcases h with ((((rfl | rfl) | rfl) | rfl) | rfl) | rfl <;> decide

theorem boundary_of_blank {w : List Char} (h : IsBlank w) : Boundary w := by
  intro c hc
  cases w with
  | nil => simp at hc
  | cons x xs =>
    simp only [List.head?_cons, Option.some.injEq] at hc
    subst hc
    exact h x (List.mem_cons_self _ _)

theorem boundary_sep_append {w : List Char} (h : IsSep w) (x : List Char) :
    Boundary (w ++ x) := by
  intro c hc
  obtain ⟨hne, hb⟩ := h
  cases w with
  | nil => exact absurd rfl hne
  | cons y ys =>
    simp only [List.cons_append, List.head?_cons, Option.some.injEq] at hc
    subst hc
    exact hb y (List.mem_cons_self _ _)

theorem dropWhile_isspace_blank (w rest : List Char) (h : IsBlank w) :
    (w ++ rest).dropWhile isspace = rest.dropWhile isspace := by
  induction w with
  | nil => rfl
  | cons x xs ih =>
    have hx : isspace x = true := h x (List.mem_cons_self _ _)
    simp only [List.cons_append, List.dropWhile_cons, hx, if_true]
    exact ih (fun c hc => h c (List.mem_cons_of_mem _ hc))

theorem dropWhile_isspace_token (t rest : List Char) (h : IsToken t) :
    (t ++ rest).dropWhile isspace = t ++ rest := by
  obtain ⟨hne, hns⟩ := h
  cases t with
  | nil => exact absurd rfl hne
  | cons x xs =>
    have hx : isspace x = false := hns x (List.mem_cons_self _ _)
    simp [List.dropWhile_cons, hx]

theorem takeWhile_token (t rest : List Char) (h : ∀ c ∈ t, isspace c = false)
    (hb : Boundary rest) :
    (t ++ rest).takeWhile (fun x => !isspace x) = t ∧
      (t ++ rest).dropWhile (fun x => !isspace x) = rest := by
  induction t with
  | nil =>
    cases rest with
    | nil => simp
    | cons y ys =>
      have hy : isspace y = true := hb y rfl
      simp [List.takeWhile_cons, List.dropWhile_cons, hy]
  | cons x xs ih =>
    have hx : isspace x = false := h x (List.mem_cons_self _ _)
    obtain ⟨i1, i2⟩ := ih (fun c hc => h c (List.mem_cons_of_mem _ hc))
    simp [List.takeWhile_cons, List.dropWhile_cons, hx, i1, i2]

theorem readString_token (w t rest : List Char) (hw : IsBlank w) (ht : IsToken t)
    (hb : Boundary rest) : readString (w ++ t ++ rest) = some (t, rest) := by
  unfold readString
  rw [List.append_assoc, dropWhile_isspace_blank w _ hw, dropWhile_isspace_token t rest ht]
  obtain ⟨h1, h2⟩ := takeWhile_token t rest ht.2 hb
  cases hts : t ++ rest with
  | nil =>
    have : t = [] := (List.append_eq_nil.mp hts).1
    exact absurd this ht.1
  | cons c cs =>
    rw [hts] at h1 h2
    simp only [h1, h2]

theorem readString_blank (w : List Char) (hw : IsBlank w) : readString w = none := by
  unfold readString
  have : w.dropWhile isspace = [] := by
    rw [List.dropWhile_eq_nil_iff]
    exact hw
  rw [this]

theorem readInt_blank (w : List Char) (hw : IsBlank w) : readInt w = none := by
  unfold readInt
  have : w.dropWhile isspace = [] := by
    rw [List.dropWhile_eq_nil_iff]
    exact hw
  rw [this]

theorem foldl_digits (ds : List Char) (a : Nat) :
    ds.foldl (fun acc c => 10 * acc + digitVal c) a = a * 10 ^ ds.length + decimalValue ds := by
  induction ds generalizing a with
  | nil => simp [decimalValue]
  | cons d ds ih =>
    rw [List.foldl_cons, ih]
    simp only [decimalValue, List.reverse_cons, List.map_append, List.map_cons, List.map_nil,
      Nat.ofDigits_append, Nat.ofDigits_singleton, List.length_map, List.length_reverse,
      List.length_cons]
    ring

theorem takeWhile_digits (ds rest : List Char) (h : ∀ c ∈ ds, isdigit c = true)
    (hb : Boundary rest) :
    (ds ++ rest).takeWhile isdigit = ds ∧ (ds ++ rest).dropWhile isdigit = rest := by
  induction ds with
  | nil =>
    cases rest with
    | nil => simp
    | cons y ys =>
      have hy : isdigit y = false := isdigit_false_of_isspace y (hb y rfl)
      simp [List.takeWhile_cons, List.dropWhile_cons, hy]
  | cons x xs ih =>
    have hx : isdigit x = true := h x (List.mem_cons_self _ _)
    obtain ⟨i1, i2⟩ := ih (fun c hc => h c (List.mem_cons_of_mem _ hc))
    simp [List.takeWhile_cons, List.dropWhile_cons, hx, i1, i2]

theorem readDigits_digits (ds rest : List Char) (hne : ds ≠ [])
    (h : ∀ c ∈ ds, isdigit c = true) (hb : Boundary rest) :
    readDigits (ds ++ rest) = some (decimalValue ds, rest) := by
  unfold readDigits
  obtain ⟨h1, h2⟩ := takeWhile_digits ds rest h hb
  rw [h1, h2]
  cases ds with
  | nil => exact absurd rfl hne
  | cons d ds' =>
    simp only [Option.some.injEq, Prod.mk.injEq, and_true]
    rw [foldl_digits]
    simp

theorem isspace_false_of_isdigit (c : Char) (h : isdigit c = true) : isspace c = false := by
  cases hs : isspace c with
  | false => rfl
  | true => rw [isdigit_false_of_isspace c hs] at h; cases h

theorem readInt_token (w tok rest : List Char) (v : Int) (hw : IsBlank w)
    (ht : IsIntToken tok v) (hb : Boundary rest) :
    readInt (w ++ tok ++ rest) = some (v, rest) := by
  obtain ⟨ds, hne, hds, hshape, hlo, hhi⟩ := ht
  have hrd := readDigits_digits ds rest hne hds hb
  unfold readInt
  rw [List.append_assoc, dropWhile_isspace_blank w _ hw]
  rcases hshape with ⟨htok, hv⟩ | ⟨htok, hv⟩ | ⟨htok, hv⟩
  · subst hv
    rw [htok]
    cases ds with
    | nil => exact absurd rfl hne
    | cons d ds' =>
      have hd : isdigit d = true := hds d (List.mem_cons_self _ _)
      have hsp : isspace d = false := isspace_false_of_isdigit d hd
      have hm : d ≠ '-' := by
        intro hh; rw [hh] at hd; exact absurd hd (by decide)
      have hp : d ≠ '+' := by
        intro hh; rw [hh] at hd; exact absurd hd (by decide)
      have hlt : decimalValue (d :: ds') < 2 ^ 31 := by exact_mod_cast hhi
      simp only [List.cons_append, List.dropWhile_cons, hsp, Bool.false_eq_true, if_false, hm,
        hp]
      rw [← List.cons_append, hrd]
      norm_num at hlt
      simp [hlt]
  · subst hv
    rw [htok]
    have hsp : isspace '+' = false := by decide
    have hlt : decimalValue ds < 2 ^ 31 := by exact_mod_cast hhi
    simp only [List.cons_append, List.dropWhile_cons, hsp, Bool.false_eq_true, if_false]
    norm_num at hlt
    simp [hrd, hlt]
  · subst hv
    rw [htok]
    have hsp : isspace '-' = false := by decide
    have hle : decimalValue ds ≤ 2 ^ 31 := by
      have h2 : (decimalValue ds : Int) ≤ 2 ^ 31 := by linarith
      exact_mod_cast h2
    simp only [List.cons_append, List.dropWhile_cons, hsp, Bool.false_eq_true, if_false]
    norm_num at hle
    simp [hrd, hle]

/-! ## The pair loop and the line parser -/

theorem boundary_pairsText (ps : List PairText) (hps : ∀ p ∈ ps, p.WF) (w x : List Char)
    (hw : IsSep w) : Boundary (pairsText ps ++ (w ++ x)) := by
  cases ps with
  | nil => exact boundary_sep_append hw x
  | cons p ps' =>
    have hp := hps p (List.mem_cons_self _ _)
    have : pairsText (p :: ps') ++ (w ++ x) =
        p.sep1 ++ (p.light_id ++ p.sep2 ++ p.count ++ pairsText ps' ++ (w ++ x)) := by
      simp [pairsText, PairText.text, List.append_assoc]
    rw [this]
    exact boundary_sep_append hp.1 _

theorem length_pairsText (ps : List PairText) (hps : ∀ p ∈ ps, p.WF) :
    ps.length ≤ (pairsText ps).length := by
  induction ps with
  | nil => simp
  | cons p ps ih =>
    have hp := hps p (List.mem_cons_self _ _)
    have h1 : 0 < p.sep1.length := List.length_pos.mpr hp.1.1
    have h2 := ih (fun q hq => hps q (List.mem_cons_of_mem _ hq))
    simp only [pairsText, PairText.text, List.length_cons, List.length_append]
    omega

/-- The loop on a sequence of well-formed pairs followed by one more token: it returns the
pairs and drops the token. -/
theorem readPairs_dangling (ps : List PairText) (hps : ∀ p ∈ ps, p.WF)
    (sepD dangling trail : List Char) (hsep : IsSep sepD) (hd : IsToken dangling)
    (htrail : IsBlank trail) (fuel : Nat) (hfuel : ps.length < fuel) :
    readPairs fuel (pairsText ps ++ (sepD ++ dangling ++ trail)) =
      some (ps.map (fun p => (String.mk p.light_id, p.cars_passed))) := by
  induction ps generalizing fuel with
  | nil =>
    obtain ⟨f, rfl⟩ : ∃ f, fuel = f + 1 := ⟨fuel - 1, by simp at hfuel; omega⟩
    simp only [pairsText, List.nil_append, readPairs, List.map_nil]
    rw [readString_token sepD dangling trail hsep.2 hd (boundary_of_blank htrail)]
    simp only [readInt_blank trail htrail]
  | cons p ps ih =>
    obtain ⟨f, rfl⟩ : ∃ f, fuel = f + 1 := ⟨fuel - 1, by simp at hfuel; omega⟩
    have hp := hps p (List.mem_cons_self _ _)
    have hps' : ∀ q ∈ ps, q.WF := fun q hq => hps q (List.mem_cons_of_mem _ hq)
    have hbR : Boundary (pairsText ps ++ (sepD ++ dangling ++ trail)) := by
      rw [List.append_assoc sepD]
      exact boundary_pairsText ps hps' sepD _ hsep
    have hshape : pairsText (p :: ps) ++ (sepD ++ dangling ++ trail) =
        p.sep1 ++ p.light_id ++
          (p.sep2 ++ p.count ++ (pairsText ps ++ (sepD ++ dangling ++ trail))) := by
      simp [pairsText, PairText.text, List.append_assoc]
    have hb1 : Boundary (p.sep2 ++ p.count ++ (pairsText ps ++ (sepD ++ dangling ++ trail))) := by
      rw [List.append_assoc]
      exact boundary_sep_append hp.2.2.1 _
    rw [hshape]
    simp only [readPairs]
    rw [readString_token p.sep1 p.light_id _ hp.1.2 hp.2.1 hb1]
    simp only []
    rw [readInt_token p.sep2 p.count _ p.cars_passed hp.2.2.1.2 hp.2.2.2 hbR]
    simp only []
    rw [ih hps' f (by simp only [List.length_cons] at hfuel; omega)]
    simp

theorem readString_length {s t r : List Char} (h : readString s = some (t, r)) :
    r.length ≤ s.length := by
  unfold readString at h
  cases hd : s.dropWhile isspace with
  | nil => simp [hd] at h
  | cons c cs =>
    simp only [hd, Option.some.injEq, Prod.mk.injEq] at h
    obtain ⟨_, h2⟩ := h
    rw [← h2]
    have h3 := (List.dropWhile_sublist (l := c :: cs) (fun x => !isspace x)).length_le
    have h4 := (List.dropWhile_sublist (l := s) isspace).length_le
    rw [hd] at h4
    exact le_trans h3 h4

theorem readDigits_length {s r : List Char} {n : Nat} (h : readDigits s = some (n, r)) :
    r.length < s.length := by
  unfold readDigits at h
  cases hd : s.takeWhile isdigit with
  | nil => simp [hd] at h
  | cons c cs =>
    simp only [hd, Option.some.injEq, Prod.mk.injEq] at h
    obtain ⟨_, h2⟩ := h
    have h3 := congrArg List.length (List.takeWhile_append_dropWhile isdigit s)
    rw [hd, h2] at h3
    simp only [List.length_append, List.length_cons] at h3
    omega

theorem readInt_length {s r : List Char} {v : Int} (h : readInt s = some (v, r)) :
    r.length < s.length := by
  unfold readInt at h
  have h4 := (List.dropWhile_sublist (l := s) isspace).length_le
  cases hd : s.dropWhile isspace with
  | nil => simp [hd] at h
  | cons c cs =>
    rw [hd] at h4
    simp only [List.length_cons] at h4
    simp only [hd] at h
    split_ifs at h with h1 h2
    · cases hr : readDigits cs with
      | none => simp [hr] at h
      | some nr =>
        obtain ⟨n, rest⟩ := nr
        have hl := readDigits_length hr
        simp only [hr] at h
        split_ifs at h
        simp only [Option.some.injEq, Prod.mk.injEq] at h
        rw [← h.2]; omega
    · cases hr : readDigits cs with
      | none => simp [hr] at h
      | some nr =>
        obtain ⟨n, rest⟩ := nr
        have hl := readDigits_length hr
        simp only [hr] at h
        split_ifs at h
        simp only [Option.some.injEq, Prod.mk.injEq] at h
        rw [← h.2]; omega
    · cases hr : readDigits (c :: cs) with
      | none => simp [hr] at h
      | some nr =>
        obtain ⟨n, rest⟩ := nr
        have hl := readDigits_length hr
        simp only [hr] at h
        split_ifs at h
        simp only [Option.some.injEq, Prod.mk.injEq] at h
        rw [← h.2]
        simp only [List.length_cons] at hl
        omega

/-- The loop ends within the fuel `parseLine` gives it. -/
theorem readPairs_total (fuel : Nat) (s : List Char) (h : s.length < fuel) :
    ∃ pairs, readPairs fuel s = some pairs := by
  induction fuel generalizing s with
  | zero => omega
  | succ f ih =>
    simp only [readPairs]
    cases h1 : readString s with
    | none => exact ⟨[], rfl⟩
    | some tr =>
      obtain ⟨t, s1⟩ := tr
      have hl1 := readString_length h1
      simp only []
      cases h2 : readInt s1 with
      | none => exact ⟨[], rfl⟩
      | some vr =>
        obtain ⟨v, s2⟩ := vr
        have hl2 := readInt_length h2
        obtain ⟨rest, hrest⟩ := ih s2 (by omega)
        simp only [hrest]
        exact ⟨_, rfl⟩

/-- Every line gives a record: the parser is total. -/
theorem parseLine_total (line : String) : ∃ data, parseLine line = some data := by
  unfold parseLine
  cases h1 : readString line.data with
  | none => exact ⟨_, rfl⟩
  | some tr =>
    obtain ⟨t, s1⟩ := tr
    obtain ⟨pairs, hp⟩ := readPairs_total (s1.length + 1) s1 (by omega)
    simp only [hp]
    exact ⟨_, rfl⟩

/-! ## Lemmas on the runs of `main` -/

theorem run_of_blocked (n : Nat) (s : MainState) (h : step s = none) : run n s = ([], s) := by
  cases n with
  | zero => rfl
  | succ k => simp [run, h]

theorem run_add (k m : Nat) (s : MainState) :
    run (k + m) s = ((run k s).1 ++ (run m (run k s).2).1, (run m (run k s).2).2) := by
  induction k generalizing s with
  | zero => simp [run]
  | succ k ih =>
    rw [Nat.add_right_comm]
    cases hs : step s with
    | none => simp [run, hs, run_of_blocked m s hs]
    | some r =>
      obtain ⟨ev, s'⟩ := r
      simp [run, hs, ih s']

theorem toSizeT_ten : toSizeT 10 = 10 := by decide

/-- The producer loop on a buffer with room for `k` more records: `k` steps put the records
of the next `k` lines. -/
theorem run_produce (k : Nat) (lines : List String) (q : List TrafficData)
    (out : List OutLine) (hk : k ≤ lines.length) (hroom : q.length + k ≤ 10) :
    ∃ ds : List TrafficData, ds.length = k ∧ (lines.take k).map parseLine = ds.map some ∧
      run k ⟨⟨q, 10⟩, Pc.produce lines, out⟩ =
        (ds.map Event.put,
          ⟨⟨q ++ ds, 10⟩, Pc.produce (lines.drop k), out ++ ds.map OutLine.consumed⟩) := by
  induction k generalizing lines q out with
  | zero => exact ⟨[], rfl, rfl, by simp [run]⟩
  | succ k ih =>
    cases lines with
    | nil => simp at hk
    | cons line rest =>
      obtain ⟨data, hdata⟩ := parseLine_total line
      have hlt : q.length < toSizeT 10 := by rw [toSizeT_ten]; omega
      have hstep : step ⟨⟨q, 10⟩, Pc.produce (line :: rest), out⟩ =
          some (Event.put data,
            ⟨⟨q ++ [data], 10⟩, Pc.produce rest, out ++ [OutLine.consumed data]⟩) := by
        simp [step, hdata, TrafficBuffer.put, hlt]
      obtain ⟨ds, hlen, hparse, hrun⟩ := ih rest (q ++ [data]) (out ++ [OutLine.consumed data])
        (by simpa using hk) (by simp only [List.length_append, List.length_singleton]; omega)
      refine ⟨data :: ds, by simp [hlen], by simp [hdata, hparse], ?_⟩
      simp [run, hstep, hrun]

theorem notReporting_init (file : Option (List String)) : NotReporting (mainInit file) := by
  cases file with
  | none => exact ⟨Or.inl ⟨[], rfl⟩, by simp [mainInit]⟩
  | some lines => exact ⟨Or.inl ⟨lines, rfl⟩, by simp [mainInit]⟩

theorem notReporting_step (s s' : MainState) (ev : Event) (h : NotReporting s)
    (hs : step s = some (ev, s')) :
    NotReporting s' ∧ ev ≠ Event.report ∧ ev ≠ Event.consumeReturned := by
  obtain ⟨hpc, hout⟩ := h
  obtain ⟨buffer, pc, out⟩ := s
  rcases hpc with ⟨lines, hl⟩ | ⟨c, hc, hrun⟩
  · simp only at hl
    subst hl
    cases lines with
    | nil =>
      simp only [step, Option.some.injEq, Prod.mk.injEq] at hs
      obtain ⟨h1, h2⟩ := hs
      subst h1 h2
      exact ⟨⟨Or.inr ⟨_, rfl, rfl⟩, hout⟩, by simp, by simp⟩
    | cons line rest =>
      simp only [step] at hs
      cases hp : parseLine line with
      | none => simp [hp] at hs
      | some data =>
        simp only [hp] at hs
        cases hb : buffer.put data with
        | none => simp [hb] at hs
        | some b =>
          simp only [hb, Option.some.injEq, Prod.mk.injEq] at hs
          obtain ⟨h1, h2⟩ := hs
          subst h1 h2
          refine ⟨⟨Or.inl ⟨_, rfl⟩, ?_⟩, by simp, by simp⟩
          simpa using hout
  · simp only at hc
    subst hc
    simp only [step, hrun, if_true] at hs
    cases hg : buffer.get with
    | none => simp [hg] at hs
    | some r =>
      obtain ⟨data, b⟩ := r
      simp only [hg, Option.some.injEq, Prod.mk.injEq] at hs
      obtain ⟨h1, h2⟩ := hs
      subst h1 h2
      refine ⟨⟨Or.inr ⟨_, rfl, rfl⟩, ?_⟩, by simp, by simp⟩
      simpa using hout

theorem notReporting_run (n : Nat) (s : MainState) (h : NotReporting s) :
    NotReporting (run n s).2 ∧
      ∀ ev ∈ (run n s).1, ev ≠ Event.report ∧ ev ≠ Event.consumeReturned := by
  induction n generalizing s with
  | zero => exact ⟨h, fun ev hev => by simp [run] at hev⟩
  | succ n ih =>
    cases hs : step s with
    | none =>
      simp only [run, hs]
      exact ⟨h, fun ev hev => by simp at hev⟩
    | some r =>
      obtain ⟨ev0, s'⟩ := r
      obtain ⟨h1, h2⟩ := notReporting_step s s' ev0 h hs
      obtain ⟨i1, i2⟩ := ih s' h1
      simp only [run, hs]
      refine ⟨i1, ?_⟩
      intro ev hev
      rcases List.mem_cons.mp hev with rfl | hmem
      · exact h2
      · exact i2 ev hmem

/-! ## Aggregation claims -/

/-- C1: for every sequence of records in which no record repeats a sensor id and every
record of a timestamp names only sensor ids of the first record of that timestamp, the fold
of `updateMaxCarsPassed` from the empty table has no entry for a timestamp without records,
and for every other timestamp an entry with the sensor ids of its first record, in that
record's order, each paired with the maximum count over all readings of that
(timestamp, sensor).  (The second premise is not used by the proof.) -/
theorem updateMaxCarsPassed_fold_max (rs : List TrafficData)
    (hnodup : ∀ r ∈ rs, (ids r.traffic_light_data).Nodup)
    (_hsub : ∀ r ∈ rs, ∀ f, firstRecord rs r.timestamp = some f →
      ∀ p ∈ r.traffic_light_data, p.1 ∈ ids f.traffic_light_data)
    (ts : String) :
    (firstRecord rs ts = none → (rs.foldl updateMaxCarsPassed ([] : Table)).find ts = none) ∧
    (∀ f, firstRecord rs ts = some f →
      ∃ e, (rs.foldl updateMaxCarsPassed ([] : Table)).find ts = some e ∧
        ids e = ids f.traffic_light_data ∧ ∀ p ∈ e, IsMaxCount rs ts p.1 p.2) := by
  refine ⟨(find_foldl_none_iff rs ts).mpr, ?_⟩
  intro f hf
  apply foldl_update_spec rs _ ts f hf
  intro ts0 f0 h0
  exact hnodup f0 (List.mem_of_find?_eq_some h0)

/-- C1, on the records (08:00,[A 5,B 3]), (08:00,[A 2,B 9]), (08:05,[A 1]): the table is
08:00 -> [(A,5),(B,9)], 08:05 -> [(A,1)], and the entry of 08:00 has the ids of the first
record paired with the maxima. -/
theorem updateMaxCarsPassed_fold_max_witness :
    scenario.foldl updateMaxCarsPassed [] =
      [("08:00", [("A", 5), ("B", 9)]), ("08:05", [("A", 1)])] ∧
    ∃ e, (scenario.foldl updateMaxCarsPassed []).find "08:00" = some e ∧
      ids e = ["A", "B"] ∧ ∀ p ∈ e, IsMaxCount scenario "08:00" p.1 p.2 :=
  ⟨by decide,
   (updateMaxCarsPassed_fold_max scenario (by decide)
      (by
        intro r hr f hf p hp
        simp only [scenario, List.mem_cons, List.mem_singleton, List.not_mem_nil,
          or_false] at hr
        rcases hr with rfl | rfl | rfl <;>
          · simp [firstRecord, scenario] at hf
            subst hf
            revert p
            decide)
      "08:00").2 ⟨"08:00", [("A", 5), ("B", 3)]⟩ (by decide)⟩

/-- C2 fails on the code: with the entry 08:00 -> [(A,5)] in the table, the record
(08:00,[B 3]) names the unseen sensor B, and after `updateMaxCarsPassed` the entry is still
[(A,5)], not [(A,5),(B,3)]. -/
theorem updateMaxCarsPassed_unseen_not_appended :
    tableA.find recordB.timestamp = some [("A", 5)] ∧
    ("B", 3) ∈ recordB.traffic_light_data ∧
    "B" ∉ ids [("A", 5)] ∧
    (updateMaxCarsPassed tableA recordB).find recordB.timestamp = some [("A", 5)] ∧
    (updateMaxCarsPassed tableA recordB).find recordB.timestamp
      ≠ some ([("A", 5)] ++ [("B", 3)]) := by
  decide

/-- C2, amended: when the table has an entry `e` for the record's timestamp, a reading whose
sensor id is not in `e` is ignored.  The inner loop leaves the entry as it is for that
reading, the table after the call is the one the record without its unseen readings gives,
and the resulting entry has the ids of `e` in the same order (so the same length), none of
them the unseen id. -/
theorem updateMaxCarsPassed_unseen_ignored (t : Table) (data : TrafficData) (e : Entry)
    (h : t.find data.timestamp = some e) (p : String × Int)
    (_hp : p ∈ data.traffic_light_data) (hid : p.1 ∉ ids e) :
    updateExisting e p = e ∧
    updateMaxCarsPassed t data =
      updateMaxCarsPassed t
        ⟨data.timestamp, data.traffic_light_data.filter (fun q => decide (q.1 ∈ ids e))⟩ ∧
    ∃ e', (updateMaxCarsPassed t data).find data.timestamp = some e' ∧
      ids e' = ids e ∧ e'.length = e.length ∧ p.1 ∉ ids e' := by
  refine ⟨updateExisting_of_not_mem e p hid, ?_, ?_⟩
  · simp only [updateMaxCarsPassed, h]
    rw [Table.modify_congr]
    intro e0 he0
    rw [h] at he0
    cases he0
    exact foldl_updateExisting_filter _ _
  · refine ⟨data.traffic_light_data.foldl updateExisting e, ?_, ?_, ?_, ?_⟩
    · simp [find_update, h]
    · exact ids_foldl_updateExisting _ _
    · have := congrArg List.length (ids_foldl_updateExisting data.traffic_light_data e)
      simpa [ids] using this
    · rw [ids_foldl_updateExisting]; exact hid

/-- C2 amended, at the table 08:00 -> [(A,5)] and the record (08:00,[B 3]). -/
theorem updateMaxCarsPassed_unseen_ignored_witness :
    updateExisting [("A", 5)] ("B", 3) = [("A", 5)] ∧
    updateMaxCarsPassed tableA recordB =
      updateMaxCarsPassed tableA
        ⟨recordB.timestamp,
          recordB.traffic_light_data.filter (fun q => decide (q.1 ∈ ids [("A", 5)]))⟩ ∧
    ∃ e', (updateMaxCarsPassed tableA recordB).find recordB.timestamp = some e' ∧
      ids e' = ids [("A", 5)] ∧ e'.length = [(("A" : String), (5 : Int))].length ∧
      "B" ∉ ids e' :=
  updateMaxCarsPassed_unseen_ignored tableA recordB [("A", 5)]
    (by decide) ("B", 3) (by decide) (by decide)

/-- C3 fails on the code: the record (08:00,[A 1,A 5]) repeats sensor A.  Folded once from
the empty table it gives 08:00 -> [(A,1),(A,5)]; folded twice it gives
08:00 -> [(A,5),(A,5)]. -/
theorem replay_not_idempotent :
    [recordAA].foldl updateMaxCarsPassed [] = [("08:00", [("A", 1), ("A", 5)])] ∧
    ([recordAA] ++ [recordAA]).foldl updateMaxCarsPassed []
      = [("08:00", [("A", 5), ("A", 5)])] ∧
    ([recordAA] ++ [recordAA]).foldl updateMaxCarsPassed []
      ≠ [recordAA].foldl updateMaxCarsPassed [] ∧
    updateMaxCarsPassed (updateMaxCarsPassed [] recordAA) recordAA
      ≠ updateMaxCarsPassed [] recordAA := by
  decide

/-- C3, amended: for every sequence of records `rs` in which the first record of each
timestamp does not repeat a sensor id (later records may), folding `rs` followed by `rs`
again from the empty table gives the same table as folding `rs` once; and applying the
update twice with the same record `r` to any table `t` gives the same table as applying it
once, provided `t` already has an entry for the timestamp of `r` or `r` does not repeat a
sensor id. -/
theorem replay_idempotent (rs : List TrafficData)
    (hfirst : ∀ ts f, firstRecord rs ts = some f → (ids f.traffic_light_data).Nodup)
    (t : Table) (r : TrafficData)
    (hr : t.find r.timestamp ≠ none ∨ (ids r.traffic_light_data).Nodup) :
    (rs ++ rs).foldl updateMaxCarsPassed ([] : Table) = rs.foldl updateMaxCarsPassed ([] : Table) ∧
    updateMaxCarsPassed (updateMaxCarsPassed t r) r = updateMaxCarsPassed t r := by
  constructor
  · rw [List.foldl_append]
    exact foldl_update_of_absorbed rs _ (foldl_update_absorbed rs hfirst)
  · exact update_of_absorbed _ r (absorbed_update_self t r hr)

/-- C3 amended, on the records (08:00,[A 5,B 3]), (08:00,[A 2,A 9]) (the second repeats A,
the first does not) and on the record (08:00,[A 1,A 5]) applied to the table
08:00 -> [(A,5)]. -/
theorem replay_idempotent_witness :
    (replayRecords ++ replayRecords).foldl updateMaxCarsPassed []
      = replayRecords.foldl updateMaxCarsPassed [] ∧
    updateMaxCarsPassed (updateMaxCarsPassed tableA recordAA) recordAA
      = updateMaxCarsPassed tableA recordAA :=
  replay_idempotent replayRecords
    (by
      intro ts f hf
      by_cases h : ts = "08:00"
      · subst h
        have : f = ⟨"08:00", [("A", 5), ("B", 3)]⟩ := by
          simpa [firstRecord, replayRecords] using hf.symm
        subst this
        decide
      · have h2 : ¬ "08:00" = ts := fun hh => h hh.symm
        simp [firstRecord, replayRecords, h2] at hf)
    tableA recordAA (Or.inl (by decide))

/-- C4: for every table, record and timestamp `ts` that has an entry `e` in the table, after
`updateMaxCarsPassed` the timestamp still has an entry, of the same length, and each pair
of `e` is found at the same position with the same sensor id and a count that is not
smaller; the same holds after folding in any sequence of records. -/
theorem updateMaxCarsPassed_monotone (t : Table) (data : TrafficData) (ts : String)
    (e : Entry) (h : t.find ts = some e) :
    (∃ e', (updateMaxCarsPassed t data).find ts = some e' ∧ e'.length = e.length ∧
      ∀ (i : Nat) (p : String × Int), e[i]? = some p →
        ∃ c, e'[i]? = some (p.1, c) ∧ p.2 ≤ c) ∧
    (∀ rs : List TrafficData,
      ∃ e', (rs.foldl updateMaxCarsPassed t).find ts = some e' ∧ e'.length = e.length ∧
        ∀ (i : Nat) (p : String × Int), e[i]? = some p →
          ∃ c, e'[i]? = some (p.1, c) ∧ p.2 ≤ c) := by
  constructor
  · obtain ⟨e', he', hle⟩ := update_entryLe t data ts e h
    exact ⟨e', he', (entryLe_index hle).1, (entryLe_index hle).2⟩
  · intro rs
    obtain ⟨e', he', hle⟩ := foldl_update_entryLe rs t ts e h
    exact ⟨e', he', (entryLe_index hle).1, (entryLe_index hle).2⟩

/-- C4, at the table 08:00 -> [(A,5),(B,3)] and the record (08:00,[A 2,B 9]). -/
theorem updateMaxCarsPassed_monotone_witness :
    (∃ e', (updateMaxCarsPassed tableAB recordAB).find "08:00" = some e' ∧
      e'.length = [(("A" : String), (5 : Int)), ("B", 3)].length ∧
      ∀ (i : Nat) (p : String × Int), [(("A" : String), (5 : Int)), ("B", 3)][i]? = some p →
        ∃ c, e'[i]? = some (p.1, c) ∧ p.2 ≤ c) ∧
    (∀ rs : List TrafficData,
      ∃ e', (rs.foldl updateMaxCarsPassed tableAB).find "08:00" = some e' ∧
        e'.length = [(("A" : String), (5 : Int)), ("B", 3)].length ∧
        ∀ (i : Nat) (p : String × Int), [(("A" : String), (5 : Int)), ("B", 3)][i]? = some p →
          ∃ c, e'[i]? = some (p.1, c) ∧ p.2 ≤ c) :=
  updateMaxCarsPassed_monotone tableAB recordAB "08:00" [("A", 5), ("B", 3)] (by decide)

/-! ## Buffer claims -/

/-- C5: in the sequential model of `TrafficBuffer`, where `put` is taken only when
`buffer.size() < max_size` and `get` only when the queue is not empty, every run from the
empty buffer satisfies: the values returned by `get`, followed by the values still queued,
are the values passed to `put`, in order.  And for values `vs` that fit the capacity, the
run of the puts of `vs` followed by as many gets exists, returns `vs` and leaves the
buffer empty. -/
theorem TrafficBuffer.fifo (size : Int) (ops : List BufferOp) (outs : List TrafficData)
    (b : TrafficBuffer) (h : (TrafficBuffer.init size).exec ops = some (outs, b))
    (vs : List TrafficData) (hvs : vs.length ≤ toSizeT size) :
    outs ++ b.buffer = putValues ops ∧
    (TrafficBuffer.init size).exec
        (vs.map BufferOp.put ++ List.replicate vs.length BufferOp.get)
      = some (vs, TrafficBuffer.init size) := by
  constructor
  · have := (TrafficBuffer.exec_spec ops _ b outs h).1
    simpa [TrafficBuffer.init] using this.symm
  · unfold TrafficBuffer.init
    rw [TrafficBuffer.exec_puts vs [] size _ (by simpa using hvs)]
    simpa using TrafficBuffer.exec_gets vs [] size

/-- C5, on a buffer of capacity 3: the run put r1, get, put r2, put r3, get returns r1, r2
and leaves r3 queued, which together are the values put; and the three puts of the scenario
records followed by three gets return the scenario records. -/
theorem TrafficBuffer.fifo_witness :
    (TrafficBuffer.init 3).exec
        [BufferOp.put recordB, BufferOp.get, BufferOp.put recordAA, BufferOp.put recordAB,
          BufferOp.get]
      = some ([recordB, recordAA], ⟨[recordAB], 3⟩) ∧
    [recordB, recordAA] ++ [recordAB] =
      putValues [BufferOp.put recordB, BufferOp.get, BufferOp.put recordAA,
        BufferOp.put recordAB, BufferOp.get] ∧
    (TrafficBuffer.init 3).exec
        (scenario.map BufferOp.put ++ List.replicate scenario.length BufferOp.get)
      = some (scenario, TrafficBuffer.init 3) :=
  ⟨by decide,
   TrafficBuffer.fifo 3
     [BufferOp.put recordB, BufferOp.get, BufferOp.put recordAA, BufferOp.put recordAB,
       BufferOp.get]
     [recordB, recordAA] ⟨[recordAB], 3⟩ (by decide) scenario (by decide)⟩

/-- C6: for a `TrafficBuffer` constructed with capacity at least 1 and every sequence of
put/get steps that respect the wait predicates, the queue length of the state reached is
between 0 and the capacity. -/
theorem TrafficBuffer.capacity_invariant (size : Int) (hsize : 1 ≤ size)
    (ops : List BufferOp) (outs : List TrafficData) (b : TrafficBuffer)
    (h : (TrafficBuffer.init size).exec ops = some (outs, b)) :
    (0 : Int) ≤ (b.buffer.length : Int) ∧ (b.buffer.length : Int) ≤ size := by
  obtain ⟨_, hm, hle⟩ := TrafficBuffer.exec_spec ops _ b outs h
  have h1 : b.buffer.length ≤ toSizeT b.max_size := hle (by simp [TrafficBuffer.init])
  have h2 : b.max_size = size := by simpa [TrafficBuffer.init] using hm
  rw [h2] at h1
  have h3 := toSizeT_le size (by omega)
  omega

/-- C6, with capacity 1: after one put the queue has length 1. -/
theorem TrafficBuffer.capacity_invariant_witness :
    (TrafficBuffer.init 1).exec [BufferOp.put recordB] = some ([], ⟨[recordB], 1⟩) ∧
    (0 : Int) ≤ (([recordB] : List TrafficData).length : Int) ∧
    (([recordB] : List TrafficData).length : Int) ≤ 1 :=
  ⟨by decide,
   TrafficBuffer.capacity_invariant 1 (by decide) [BufferOp.put recordB] []
     ⟨[recordB], 1⟩ (by decide)⟩

/-- C7 fails on the code: the constructor has no check.  With size 0 and with size -1 it
returns a buffer, not the error `InvalidCapacity`. -/
theorem TrafficBuffer.construct_zero_succeeds :
    TrafficBuffer.construct 0 = Except.ok ⟨[], 0⟩ ∧
    TrafficBuffer.construct 0 ≠ Except.error BufferError.InvalidCapacity ∧
    TrafficBuffer.construct (-1) = Except.ok ⟨[], -1⟩ ∧
    TrafficBuffer.construct (-1) ≠ Except.error BufferError.InvalidCapacity := by
  refine ⟨rfl, ?_, rfl, ?_⟩ <;> simp [TrafficBuffer.construct]

/-- C7, amended: for every size, also 0 and the negative ones, the constructor succeeds and
gives the empty buffer whose `max_size` is that size; it never returns an error. -/
theorem TrafficBuffer.construct_succeeds (size : Int) :
    TrafficBuffer.construct size = Except.ok ⟨[], size⟩ ∧
    ∀ err : BufferError, TrafficBuffer.construct size ≠ Except.error err := by
  refine ⟨rfl, ?_⟩
  intro err
  simp [TrafficBuffer.construct]

/-! ## Parser claim -/

/-- C9: for every line made of a timestamp token, then k well-formed (sensor_id, integer
count) token pairs, then one more token, the tokens separated by whitespace (whitespace
before the timestamp and after the last token is allowed), the record parsed by
`produceFromFile` has that timestamp and exactly those k pairs, in order: the unpaired
token is dropped. -/
theorem parseLine_dangling (lead timestamp : List Char) (ps : List PairText)
    (sepD dangling trail : List Char) (hlead : IsBlank lead) (hts : IsToken timestamp)
    (hps : ∀ p ∈ ps, p.WF) (hsep : IsSep sepD) (hd : IsToken dangling)
    (htrail : IsBlank trail) :
    parseLine (String.mk (lead ++ timestamp ++ (pairsText ps ++ (sepD ++ dangling ++ trail))))
      = some ⟨String.mk timestamp,
          ps.map (fun p => (String.mk p.light_id, p.cars_passed))⟩ := by
  unfold parseLine
  have hb : Boundary (pairsText ps ++ (sepD ++ dangling ++ trail)) := by
    rw [List.append_assoc sepD]
    exact boundary_pairsText ps hps sepD _ hsep
  simp only []
  rw [readString_token lead timestamp _ hlead hts hb]
  simp only []
  rw [readPairs_dangling ps hps sepD dangling trail hsep hd htrail _
    (by
      have := length_pairsText ps hps
      simp only [List.length_append]
      omega)]

/-- C9, on the line "08:10 A 4 B": it parses to timestamp 08:10 with readings [(A,4)]. -/
theorem parseLine_dangling_witness :
    parseLine "08:10 A 4 B" = some ⟨"08:10", [("A", 4)]⟩ :=
  parseLine_dangling [] ['0', '8', ':', '1', '0'] [pairA4] [' '] ['B'] []
    (by decide) (by decide)
    (by
      intro p hp
      rw [List.mem_singleton.mp hp]
      exact ⟨by decide, by decide, by decide,
        ⟨['4'], by decide, by decide, Or.inl ⟨rfl, by decide⟩, by decide, by decide⟩⟩)
    (by decide) (by decide) (by decide)

/-! ## Program claims -/

/-- C8 fails on the code, for every input: `consume` never returns, because `running` is
never set to false, so the final report is never reached.  After any number of steps from
any input the main thread is not at `printMaxCarsPassed` and has not returned, the header
of the report has not been printed, and no step was the return of `consume` or the report.
On the three lines of the scenario the run blocks after seven steps in `get`, on the empty
buffer, with the table complete and unreported. -/
theorem main_never_reports :
    (∀ (file : Option (List String)) (n : Nat),
      (run n (mainInit file)).2.pc ≠ Pc.done ∧
      (∀ c, (run n (mainInit file)).2.pc ≠ Pc.report c) ∧
      OutLine.reportHeader ∉ (run n (mainInit file)).2.out ∧
      Event.report ∉ (run n (mainInit file)).1 ∧
      Event.consumeReturned ∉ (run n (mainInit file)).1) ∧
    (run 7 (mainInit (some scenarioFile))).2.buffer.buffer = [] ∧
    (run 7 (mainInit (some scenarioFile))).2.pc =
      Pc.consume ⟨true, [("08:00", [("A", 5), ("B", 9)]), ("08:05", [("A", 1)])]⟩ ∧
    step (run 7 (mainInit (some scenarioFile))).2 = none ∧
    (∀ n, 7 ≤ n →
      run n (mainInit (some scenarioFile)) = run 7 (mainInit (some scenarioFile))) := by
  refine ⟨?_, by decide, by decide, by decide, ?_⟩
  · intro file n
    obtain ⟨⟨hpc, hout⟩, hev⟩ := notReporting_run n (mainInit file) (notReporting_init file)
    refine ⟨?_, ?_, hout, ?_, ?_⟩
    · rcases hpc with ⟨l, hl⟩ | ⟨c, hc, _⟩
      · simp [hl]
      · simp [hc]
    · intro c0
      rcases hpc with ⟨l, hl⟩ | ⟨c, hc, _⟩
      · simp [hl]
      · simp [hc]
    · intro hmem; exact (hev _ hmem).1 rfl
    · intro hmem; exact (hev _ hmem).2 rfl
  · intro n hn
    obtain ⟨m, rfl⟩ : ∃ m, n = 7 + m := ⟨n - 7, by omega⟩
    rw [run_add, run_of_blocked m _ (by decide)]
    simp

/-- C10: in the program as `main` wires it (capacity 10, the producer runs to its end
before the consumer exists), for every file of more than 10 lines: ten steps put the
records of the first ten lines; the buffer then holds these ten records, as many as
`max_size`; the eleventh line is next and its `put` blocks, so the state has no successor
and every longer run ends in it; every step of every run is a `put`, none a `get`, and the
main thread is in the producer loop throughout, so the consumer and its table never come
to exist. -/
theorem main_stuck_in_eleventh_put (lines : List String) (h : 10 < lines.length) :
    ∃ ds : List TrafficData, ds.length = 10 ∧ (lines.take 10).map parseLine = ds.map some ∧
      run 10 (mainInit (some lines)) =
        (ds.map Event.put,
          ⟨⟨ds, 10⟩, Pc.produce (lines.drop 10), ds.map OutLine.consumed⟩) ∧
      ds.length = toSizeT 10 ∧
      (∃ line rest data, lines.drop 10 = line :: rest ∧ parseLine line = some data ∧
        TrafficBuffer.put ⟨ds, 10⟩ data = none) ∧
      step (run 10 (mainInit (some lines))).2 = none ∧
      (∀ n, 10 ≤ n → run n (mainInit (some lines)) = run 10 (mainInit (some lines))) ∧
      (∀ n, ∀ ev ∈ (run n (mainInit (some lines))).1, ∃ data, ev = Event.put data) ∧
      (∀ n, ∃ rest, (run n (mainInit (some lines))).2.pc = Pc.produce rest) := by
  obtain ⟨ds, hlen, hparse, hrun⟩ := run_produce 10 lines [] [] (by omega) (by simp)
  simp only [List.nil_append] at hrun
  have hrun10 : run 10 (mainInit (some lines)) =
      (ds.map Event.put, ⟨⟨ds, 10⟩, Pc.produce (lines.drop 10), ds.map OutLine.consumed⟩) := hrun
  obtain ⟨line, rest, hdrop⟩ : ∃ line rest, lines.drop 10 = line :: rest := by
    cases hd : lines.drop 10 with
    | nil =>
      have := congrArg List.length hd
      simp only [List.length_drop, List.length_nil] at this
      omega
    | cons line rest => exact ⟨line, rest, rfl⟩
  obtain ⟨data, hdata⟩ := parseLine_total line
  have hput : TrafficBuffer.put ⟨ds, 10⟩ data = none := by
    simp [TrafficBuffer.put, toSizeT_ten, hlen]
  have hblocked : step (run 10 (mainInit (some lines))).2 = none := by
    rw [hrun10]
    simp [step, hdrop, hdata, hput]
  have hlater : ∀ n, 10 ≤ n →
      run n (mainInit (some lines)) = run 10 (mainInit (some lines)) := by
    intro n hn
    obtain ⟨m, rfl⟩ : ∃ m, n = 10 + m := ⟨n - 10, by omega⟩
    rw [run_add, run_of_blocked m _ hblocked]
    simp
  have hprefix : ∀ n, n ≤ 10 → ∃ es : List TrafficData, ∃ rest,
      (run n (mainInit (some lines))).1 = es.map Event.put ∧
      (run n (mainInit (some lines))).2.pc = Pc.produce rest := by
    intro n hn
    obtain ⟨es, _, _, hr⟩ := run_produce n lines [] [] (by omega) (by simp; omega)
    have hr' : run n (mainInit (some lines)) = _ := hr
    exact ⟨es, lines.drop n, by rw [hr'], by rw [hr']⟩
  have hall : ∀ n, ∃ es : List TrafficData, ∃ rest,
      (run n (mainInit (some lines))).1 = es.map Event.put ∧
      (run n (mainInit (some lines))).2.pc = Pc.produce rest := by
    intro n
    by_cases hn : n ≤ 10
    · exact hprefix n hn
    · rw [hlater n (by omega)]
      exact hprefix 10 (le_refl _)
  refine ⟨ds, hlen, hparse, hrun10, by rw [hlen, toSizeT_ten],
    ⟨line, rest, data, hdrop, hdata, hput⟩, hblocked, hlater, ?_, ?_⟩
  · intro n ev hev
    obtain ⟨es, _, h1, _⟩ := hall n
    rw [h1] at hev
    obtain ⟨d, _, hd⟩ := List.mem_map.mp hev
    exact ⟨d, hd.symm⟩
  · intro n
    obtain ⟨_, rest, _, h2⟩ := hall n
    exact ⟨rest, h2⟩

/-- C10, on a file of eleven lines: the state after ten steps has no successor, and the run
of twenty steps is the run of ten. -/
theorem main_stuck_in_eleventh_put_witness :
    step (run 10 (mainInit (some elevenLines))).2 = none ∧
    run 20 (mainInit (some elevenLines)) = run 10 (mainInit (some elevenLines)) ∧
    ∃ rest, (run 20 (mainInit (some elevenLines))).2.pc = Pc.produce rest := by
  obtain ⟨_, _, _, _, _, _, h1, h2, _, h3⟩ :=
    main_stuck_in_eleventh_put elevenLines (by decide)
  exact ⟨h1, h2 20 (by decide), h3 20⟩
